import Mathlib

/-!
# Verification of the `dataset-editor` tag-management core

Shallow embedding of `dataset-editor/dataset.py`: the tag string helpers
(`split_tags`, `join_tags`), the `DatasetItem` tag algebra
(set/add/prepend/remove/replace/match/deduplicate), dirty tracking,
flush/reload against a modelled sidecar file, deletion, and the `Dataset`
aggregate queries.  Filesystem effects are made explicit: the sidecar file is
an `Option String` (`none` = file absent), deletion acts on a record of which
of the two files exist.
-/

namespace DatasetEditor

/-- The whitespace characters stripped by Python's `str.strip()`
(ASCII whitespace; the tags handled by this tool are ASCII). -/
def isPySpace (c : Char) : Bool :=
  c = ' ' || c = '\t' || c = '\n' || c = '\r' || c = '\x0b' || c = '\x0c'

/-- `str.strip()` on the character list: drop leading and trailing whitespace. -/
def stripChars (l : List Char) : List Char :=
  ((l.dropWhile isPySpace).reverse.dropWhile isPySpace).reverse

/-- `str.strip()`. -/
def pyStrip (s : String) : String :=
  ⟨stripChars s.data⟩

/-- Python's `text.split(',')` on the character list: split at every comma,
keeping empty pieces (`"".split(',') == [""]`). -/
def splitOnComma : List Char → List (List Char)
  | [] => [[]]
  | c :: rest =>
    if c = ',' then [] :: splitOnComma rest
    else
      match splitOnComma rest with
      | [] => [[c]]
      | piece :: pieces => (c :: piece) :: pieces

/-- `sep.join(pieces)` on character lists. -/
def joinChars (sep : List Char) : List (List Char) → List Char
  | [] => []
  | [x] => x
  | x :: xs => x ++ sep ++ joinChars sep xs

/-- `split_tags` (dataset.py line 8): split on `,`, strip each piece,
drop the falsy (empty) ones. -/
def split_tags (text : String) : List String :=
  ((splitOnComma text.data).map (fun cs => (⟨stripChars cs⟩ : String))).filter
    (fun s => s != "")

/-- `join_tags` (dataset.py line 12): `', '.join(tags)` plus an optional
trailing comma when `tags` is nonempty. -/
def join_tags (tags : List String) (trailing_comma : Bool := false) : String :=
  (⟨joinChars [',', ' '] (tags.map String.data)⟩ : String) ++
    (if trailing_comma && !tags.isEmpty then "," else "")

/-- `dict.fromkeys` deduplication, generalized over an accumulator of
already-seen keys: keep the first occurrence of each value, in order. -/
def dedupAux (seen : List String) : List String → List String
  | [] => []
  | x :: xs => if seen.contains x then dedupAux seen xs else x :: dedupAux (x :: seen) xs

/-- `list(dict.fromkeys(l))`: remove duplicates keeping first occurrences. -/
def dedupKeepFirst (l : List String) : List String :=
  dedupAux [] l

/-- The tags transformation of `DatasetItem.deduplicate` (dataset.py line 74):
`list(dict.fromkeys(filter(None, map(str.strip, tags))))`. -/
def dedupTags (l : List String) : List String :=
  dedupKeepFirst ((l.map pyStrip).filter (fun s => s != ""))

/-- A tag argument of the Python union type `str | Collection[str]`. -/
inductive TagsArg where
  | str (s : String)
  | coll (l : List String)

/-- The normalization every tag operation performs first:
`if isinstance(tags, str): tags = [tags]`. -/
def TagsArg.toList : TagsArg → List String
  | .str s => [s]
  | .coll l => l

/-- The mutable state of a `DatasetItem` (dataset.py line 16).  The `parent`
back-reference is omitted: no modelled operation reads it.  Paths are plain
strings. -/
structure DatasetItem where
  img_file : String
  tags_file : String
  tags : List String := []
  selected : Bool := false
  dirty : Bool := false
  deleted : Bool := false
deriving DecidableEq, Repr

namespace DatasetItem

/-- `on_changed` (line 61): set `dirty`. -/
def on_changed (item : DatasetItem) : DatasetItem :=
  { item with dirty := true }

/-- `on_reset` (line 64): clear `dirty`. -/
def on_reset (item : DatasetItem) : DatasetItem :=
  { item with dirty := false }

/-- `on_selected` (line 67): set `selected`. -/
def on_selected (item : DatasetItem) (state : Bool) : DatasetItem :=
  { item with selected := state }

/-- `select_invert` (line 55). -/
def select_invert (item : DatasetItem) : DatasetItem :=
  item.on_selected (!item.selected)

/-- `select_set` (line 58). -/
def select_set (item : DatasetItem) (value : Bool := true) : DatasetItem :=
  item.on_selected value

/-- `deduplicate` (line 70): strip every tag, drop empties, dedupe keeping
first occurrences; fire `on_changed` iff the length changed. -/
def deduplicate (item : DatasetItem) : DatasetItem :=
  let old_len := item.tags.length
  let newTags := dedupTags item.tags
  let item' := { item with tags := newTags }
  if newTags.length ≠ old_len then item'.on_changed else item'

/-- `set_tags` (line 81): replace wholesale, deduplicate, always `on_changed`. -/
def set_tags (item : DatasetItem) (tags : TagsArg) : DatasetItem :=
  (({ item with tags := tags.toList }).deduplicate).on_changed

/-- `prepend_tags` (line 89): new tags in front, deduplicate, `on_changed`
iff the final length differs from the length before the call. -/
def prepend_tags (item : DatasetItem) (tags : TagsArg) : DatasetItem :=
  let old_len := item.tags.length
  let item' := ({ item with tags := tags.toList ++ item.tags }).deduplicate
  if item'.tags.length ≠ old_len then item'.on_changed else item'

/-- `add_tags` (line 101): new tags appended, deduplicate, `on_changed`
iff the final length differs from the length before the call. -/
def add_tags (item : DatasetItem) (tags : TagsArg) : DatasetItem :=
  let old_len := item.tags.length
  let item' := ({ item with tags := item.tags ++ tags.toList }).deduplicate
  if item'.tags.length ≠ old_len then item'.on_changed else item'

/-- `remove_tags` (line 113): drop every tag present in the argument,
`on_changed` iff the length changed.  (The Python `set(tags)` only changes
the membership test's cost, not its result.) -/
def remove_tags (item : DatasetItem) (tags : TagsArg) : DatasetItem :=
  let old_len := item.tags.length
  let ts := tags.toList
  let item' := { item with tags := item.tags.filter (fun t => !ts.contains t) }
  if item'.tags.length ≠ old_len then item'.on_changed else item'

/-- `match_tags` (line 125): every queried tag is present. -/
def match_tags (item : DatasetItem) (tags : TagsArg) : Bool :=
  tags.toList.all (fun t => item.tags.contains t)

/-- `replace_tags` (line 134): no-op unless all of `search` is present,
otherwise remove `search` then add `replace`. -/
def replace_tags (item : DatasetItem) (search replace : TagsArg) : DatasetItem :=
  if item.match_tags search then (item.remove_tags search).add_tags replace
  else item

/-- `flush` (line 29): write `join_tags(tags)` to the sidecar if dirty or
forced, then `on_reset`.  The sidecar file content is modelled as
`Option String` (`none` = absent); `write_text` creates the file. -/
def flush (item : DatasetItem) (fileContent : Option String) (force : Bool := false) :
    DatasetItem × Option String :=
  let fileContent' :=
    if item.dirty || force then some (join_tags item.tags) else fileContent
  (item.on_reset, fileContent')

/-- `reload` (line 35): parse the sidecar if it exists, else `touch` it
(creating it empty) and set `tags = []`; either way `on_reset`.
`__post_init__` (line 26) is exactly a `reload`, so this also models
construction. -/
def reload (item : DatasetItem) (fileContent : Option String) :
    DatasetItem × Option String :=
  match fileContent with
  | some text => (({ item with tags := split_tags text }).on_reset, some text)
  | none => (({ item with tags := [] }).on_reset, some "")

end DatasetItem

/-- Which of an item's two files currently exist on disk. -/
structure FileSys where
  imgExists : Bool
  tagsExists : Bool
deriving DecidableEq, Repr

/-- A diagnostic emitted to the caller; `warnings.warn` is warning-level. -/
inductive Diagnostic where
  | warning (msg : String)
  | err (msg : String)
deriving DecidableEq, Repr

/-- `delete` (line 44): mark `deleted`; soft mode renames both files
(`Path.rename` raises if its source is absent), hard mode warns and unlinks
both with `missing_ok=True`, which never raises. -/
def DatasetItem.delete (item : DatasetItem) (fs : FileSys) (soft : Bool := true) :
    Except String (DatasetItem × FileSys × List Diagnostic) :=
  let item' := { item with deleted := true }
  if soft then
    if !fs.imgExists then .error "FileNotFoundError"
    else if !fs.tagsExists then .error "FileNotFoundError"
    else .ok (item', ⟨false, false⟩, [])
  else
    .ok (item', ⟨false, false⟩, [.warning "Permanently deleting an image!"])

/-- The `Dataset` state (dataset.py line 155): the ordered item list.
`path` and `tags_file_ext` only matter to the filesystem scan, which is not
modelled here. -/
structure Dataset where
  items : List DatasetItem
deriving DecidableEq, Repr

namespace Dataset

/-- `unsaved_changes_cnt` (line 179): `sum(item.dirty for item in self.items)`,
summing booleans as 0/1 over the whole `items` list. -/
def unsaved_changes_cnt (d : Dataset) : Nat :=
  (d.items.map (fun item => if item.dirty then 1 else 0)).sum

/-- `__len__` (line 221): the length of the `items` list. -/
def length (d : Dataset) : Nat :=
  d.items.length

/-- `get_selection` (line 224): the items with `selected`, in list order. -/
def get_selection (d : Dataset) : List DatasetItem :=
  d.items.filter (fun item => item.selected)

/-- The active items: those not marked `deleted` (spec glossary). -/
def activeItems (d : Dataset) : List DatasetItem :=
  d.items.filter (fun item => !item.deleted)

end Dataset

/-- The spec's at-rest invariant on a tag list: no duplicates, and no
empty or whitespace-only entries (`pyStrip s = ""` characterizes
empty-or-whitespace-only). -/
abbrev TagsInvariant (tags : List String) : Prop :=
  tags.Nodup ∧ ∀ s ∈ tags, pyStrip s ≠ ""

/-- The per-piece processing `split_tags` applies after splitting:
strip each piece, drop the empty ones. -/
def processPieces (pieces : List (List Char)) : List String :=
  (pieces.map (fun cs => (⟨stripChars cs⟩ : String))).filter (fun s => s != "")

/-- A concrete item whose tag list is `["a"]`, clean and unselected. -/
def itemA : DatasetItem :=
  { img_file := "a.png", tags_file := "a.txt", tags := ["a"] }

/-- A concrete dirty item with tags `["a", "b", "c"]`. -/
def itemABC : DatasetItem :=
  { img_file := "b.png", tags_file := "b.txt", tags := ["a", "b", "c"], dirty := true }

/-- A single-item dataset whose item is marked deleted but still dirty and
selected — the state between the mark and compact phases of
`remove_images`. -/
def deletedDirtyDataset : Dataset :=
  ⟨[{ img_file := "x.png", tags_file := "x.txt", dirty := true, selected := true,
      deleted := true }]⟩

/-- A single-item dataset with no deleted item. -/
def cleanDataset : Dataset :=
  ⟨[{ img_file := "x.png", tags_file := "x.txt", dirty := true, selected := true }]⟩

end DatasetEditor

namespace DatasetEditor

/-! ## Lemmas about `stripChars` / `pyStrip` -/

/-- `stripChars` is leading-strip followed by Mathlib's trailing-strip. -/
theorem stripChars_eq (l : List Char) :
    stripChars l = List.rdropWhile isPySpace (l.dropWhile isPySpace) := rfl

/-- Every nonempty `dropWhile` result starts with a character failing the
predicate. -/
theorem dropWhile_head_fails (p : Char → Bool) (l : List Char) :
    l.dropWhile p = [] ∨ ∃ c t, l.dropWhile p = c :: t ∧ p c = false := by
  induction l with
  | nil => exact .inl rfl
  | cons c cs ih =>
      rw [List.dropWhile_cons]
      by_cases h : p c
      · simpa [h] using ih
      · exact .inr ⟨c, cs, by simp [h], by simp [h]⟩

/-- A list whose head fails the predicate is untouched by `dropWhile`. -/
theorem dropWhile_eq_self_of_head_fails (p : Char → Bool) (l : List Char)
    (h : ∀ c t, l = c :: t → p c = false) : l.dropWhile p = l := by
  cases l with
  | nil => rfl
  | cons c cs => rw [List.dropWhile_cons, h c cs rfl]; simp

/-- Trailing-stripping cannot introduce a new head: the result is empty or
keeps the original head. -/
theorem rdropWhile_head_cases (p : Char → Bool) (l : List Char) :
    List.rdropWhile p l = [] ∨
      ∀ c t, l = c :: t → ∃ t', List.rdropWhile p l = c :: t' := by
  induction l using List.reverseRecOn with
  | nil => exact .inl rfl
  | append_singleton l x ih =>
      rw [List.rdropWhile_concat]
      by_cases hx : p x
      · simp only [hx, if_true]
        rcases ih with h | h
        · exact .inl h
        · rcases l with _ | ⟨c, t⟩
          · exact .inl (by simp [List.rdropWhile_nil])
          · refine .inr fun c' t' hEq => ?_
            have hc : c' = c := by
              have := congrArg (fun z => z.head?) hEq
              simpa using this.symm
            subst hc
            exact h c' t rfl
      · simp only [hx, if_false]
        rcases l with _ | ⟨c, t⟩
        · exact .inr fun c' t' hEq => ⟨[], by
            simpa using congrArg (fun z => z.head?) hEq⟩
        · refine .inr fun c' t' hEq => ?_
          have hc : c' = c := by
            have := congrArg (fun z => z.head?) hEq
            simpa using this.symm
          subst hc
          exact ⟨t ++ [x], rfl⟩

/-- Stripping is idempotent, character-level. -/
theorem stripChars_idem (l : List Char) :
    stripChars (stripChars l) = stripChars l := by
  rw [stripChars_eq, stripChars_eq l]
  set a := l.dropWhile isPySpace with ha
  have hdrop : (List.rdropWhile isPySpace a).dropWhile isPySpace
      = List.rdropWhile isPySpace a := by
    apply dropWhile_eq_self_of_head_fails
    intro c t hEq
    rcases rdropWhile_head_cases isPySpace a with h | h
    · rw [h] at hEq; cases hEq
    · rcases dropWhile_head_fails isPySpace l with h0 | ⟨c0, t0, h0, hc0⟩
      · rw [← ha] at h0
        rw [h0] at hEq; simp [List.rdropWhile_nil] at hEq
      · rw [← ha] at h0
        rcases h c0 t0 h0 with ⟨t', ht'⟩
        rw [ht'] at hEq
        cases hEq
        exact hc0
  rw [hdrop, List.rdropWhile_idempotent]

/-- `pyStrip` is idempotent. -/
theorem pyStrip_idem (s : String) : pyStrip (pyStrip s) = pyStrip s := by
  simp [pyStrip, stripChars_idem]

/-- Stripping eats a single leading blank. -/
theorem stripChars_cons_space (l : List Char) :
    stripChars (' ' :: l) = stripChars l := by
  rw [stripChars_eq, stripChars_eq, List.dropWhile_cons]
  norm_num [isPySpace]

/-! ## Lemmas about `dedupAux` / `dedupKeepFirst` / `dedupTags` -/

/-- Deduplication only keeps elements of the input. -/
theorem mem_of_mem_dedupAux {x : String} :
    ∀ {l seen : List String}, x ∈ dedupAux seen l → x ∈ l := by
  intro l
  induction l with
  | nil => intro seen h; cases h
  | cons a t ih =>
      intro seen h
      rw [dedupAux] at h
      split at h
      · exact .tail a (ih h)
      · cases h with
        | head => exact .head _
        | tail _ h2 => exact .tail a (ih h2)

/-- Deduplication never emits an already-seen element. -/
theorem not_mem_seen_of_mem_dedupAux {x : String} :
    ∀ {l seen : List String}, x ∈ dedupAux seen l → x ∉ seen := by
  intro l
  induction l with
  | nil => intro seen h; cases h
  | cons a t ih =>
      intro seen h
      rw [dedupAux] at h
      split at h
      · exact ih h
      · cases h with
        | head =>
            intro hx
            rename_i hcon
            exact hcon (List.elem_iff.mpr hx)
        | tail _ h2 =>
            intro hx
            exact (ih h2) (List.mem_cons_of_mem a hx)

/-- The output of deduplication has no duplicates. -/
theorem nodup_dedupAux : ∀ (l seen : List String), (dedupAux seen l).Nodup := by
  intro l
  induction l with
  | nil => intro seen; exact List.nodup_nil
  | cons a t ih =>
      intro seen
      rw [dedupAux]
      split
      · exact ih seen
      · refine List.Nodup.cons ?_ (ih (a :: seen))
        intro hmem
        exact (not_mem_seen_of_mem_dedupAux hmem) (List.mem_cons_self a seen)

/-- Deduplicating a duplicate-free list avoiding `seen` is the identity. -/
theorem dedupAux_eq_self : ∀ (l seen : List String), l.Nodup →
    (∀ x ∈ l, x ∉ seen) → dedupAux seen l = l := by
  intro l
  induction l with
  | nil => intro seen _ _; rfl
  | cons a t ih =>
      intro seen hnd hs
      rw [dedupAux]
      have hac : seen.contains a = false := by
        rw [Bool.eq_false_iff]
        intro hc
        exact hs a (List.mem_cons_self a t) (List.elem_iff.mp hc)
      rw [hac]
      simp only [Bool.false_eq_true, if_false]
      rw [ih (a :: seen) (List.Nodup.of_cons hnd) ?_]
      intro x hx
      intro hmem
      rcases List.mem_cons.mp hmem with hxa | hxs
      · subst hxa
        exact (List.nodup_cons.mp hnd).1 hx
      · exact hs x (List.mem_cons_of_mem a hx) hxs

/-- `dedupKeepFirst` yields a duplicate-free list. -/
theorem nodup_dedupKeepFirst (l : List String) : (dedupKeepFirst l).Nodup :=
  nodup_dedupAux l []

/-- `dedupKeepFirst` fixes duplicate-free lists. -/
theorem dedupKeepFirst_eq_self {l : List String} (h : l.Nodup) :
    dedupKeepFirst l = l :=
  dedupAux_eq_self l [] h (fun _ _ hmem => (List.not_mem_nil _) hmem)

/-- Every element surviving `dedupTags` is a stripped, nonempty string. -/
theorem mem_dedupTags {x : String} {l : List String} (h : x ∈ dedupTags l) :
    pyStrip x = x ∧ x ≠ "" := by
  have hx : x ∈ (l.map pyStrip).filter (fun s => s != "") :=
    mem_of_mem_dedupAux h
  rcases List.mem_filter.mp hx with ⟨hmap, hne⟩
  rcases List.mem_map.mp hmap with ⟨y, _, hy⟩
  refine ⟨?_, by simpa using hne⟩
  rw [← hy, pyStrip_idem]

/-- `dedupTags` yields a duplicate-free list. -/
theorem nodup_dedupTags (l : List String) : (dedupTags l).Nodup :=
  nodup_dedupKeepFirst _

/-- The full invariant holds after `dedupTags`. -/
theorem tagsInvariant_dedupTags (l : List String) : TagsInvariant (dedupTags l) := by
  refine ⟨nodup_dedupTags l, fun s hs => ?_⟩
  rcases mem_dedupTags hs with ⟨hstrip, hne⟩
  rw [hstrip]; exact hne

/-- `dedupTags` is idempotent. -/
theorem dedupTags_idem (l : List String) : dedupTags (dedupTags l) = dedupTags l := by
  have hmap : (dedupTags l).map pyStrip = dedupTags l := by
    rw [List.map_congr_left (fun x hx => (mem_dedupTags hx).1), List.map_id']
  have hfil : ((dedupTags l).map pyStrip).filter (fun s => s != "") = dedupTags l := by
    rw [hmap]
    exact List.filter_eq_self.mpr fun x hx => by
      simpa using (mem_dedupTags hx).2
  show dedupKeepFirst (((dedupTags l).map pyStrip).filter (fun s => s != "")) = dedupTags l
  rw [hfil]
  exact dedupKeepFirst_eq_self (nodup_dedupTags l)

/-! ## Characterizations of the tag operations -/

namespace DatasetItem

/-- `deduplicate` rewrites the tags through `dedupTags`, whatever the branch. -/
theorem deduplicate_tags (item : DatasetItem) :
    item.deduplicate.tags = dedupTags item.tags := by
  rw [deduplicate]
  split <;> rfl

/-- The dirty flag after `deduplicate`: set iff it was set or the tag count
changed. -/
theorem deduplicate_dirty (item : DatasetItem) :
    item.deduplicate.dirty =
      (item.dirty || !((dedupTags item.tags).length == item.tags.length)) := by
  rw [deduplicate]
  split
  next h =>
    show true = _
    simp [h]
  next h =>
    simp only [ne_eq, not_not] at h
    show item.dirty = _
    simp [h]

/-- The tags after `set_tags`. -/
theorem set_tags_tags (item : DatasetItem) (a : TagsArg) :
    (item.set_tags a).tags = dedupTags a.toList := by
  rw [set_tags]
  show (DatasetItem.deduplicate _).tags = _
  rw [deduplicate_tags]

/-- The tags after `add_tags`. -/
theorem add_tags_tags (item : DatasetItem) (a : TagsArg) :
    (item.add_tags a).tags = dedupTags (item.tags ++ a.toList) := by
  rw [add_tags]
  split
  · show (DatasetItem.deduplicate _).tags = _
    rw [deduplicate_tags]
  · show (DatasetItem.deduplicate _).tags = _
    rw [deduplicate_tags]

/-- The tags after `prepend_tags`. -/
theorem prepend_tags_tags (item : DatasetItem) (a : TagsArg) :
    (item.prepend_tags a).tags = dedupTags (a.toList ++ item.tags) := by
  rw [prepend_tags]
  split
  · show (DatasetItem.deduplicate _).tags = _
    rw [deduplicate_tags]
  · show (DatasetItem.deduplicate _).tags = _
    rw [deduplicate_tags]

/-- The tags after `remove_tags`. -/
theorem remove_tags_tags (item : DatasetItem) (a : TagsArg) :
    (item.remove_tags a).tags =
      item.tags.filter (fun t => !a.toList.contains t) := by
  rw [remove_tags]
  split <;> rfl

/-- The dirty flag after `add_tags`, from a clean item: set iff the final
count differs from the starting count, or the intermediate deduplication
shrank the concatenated list. -/
theorem add_tags_dirty (item : DatasetItem) (a : TagsArg)
    (h : item.dirty = false) :
    ((item.add_tags a).dirty = true) ↔
      ((item.add_tags a).tags.length ≠ item.tags.length ∨
        (item.add_tags a).tags.length ≠ item.tags.length + a.toList.length) := by
  rw [add_tags_tags]
  rw [add_tags]
  have hlen : (item.tags ++ a.toList).length = item.tags.length + a.toList.length :=
    List.length_append _ _
  split
  next hout =>
    rw [deduplicate_tags] at hout
    simp only [DatasetItem.tags] at hout
    exact iff_of_true rfl (.inl hout)
  next hout =>
    rw [deduplicate_tags] at hout
    simp only [DatasetItem.tags, ne_eq, not_not] at hout
    rw [deduplicate_dirty]
    simp only [DatasetItem.dirty, DatasetItem.tags, h, hout, hlen]
    simp

/-- The dirty flag after `prepend_tags`, from a clean item. -/
theorem prepend_tags_dirty (item : DatasetItem) (a : TagsArg)
    (h : item.dirty = false) :
    ((item.prepend_tags a).dirty = true) ↔
      ((item.prepend_tags a).tags.length ≠ item.tags.length ∨
        (item.prepend_tags a).tags.length ≠ a.toList.length + item.tags.length) := by
  rw [prepend_tags_tags]
  rw [prepend_tags]
  have hlen : (a.toList ++ item.tags).length = a.toList.length + item.tags.length :=
    List.length_append _ _
  split
  next hout =>
    rw [deduplicate_tags] at hout
    simp only [DatasetItem.tags] at hout
    exact iff_of_true rfl (.inl hout)
  next hout =>
    rw [deduplicate_tags] at hout
    simp only [DatasetItem.tags, ne_eq, not_not] at hout
    rw [deduplicate_dirty]
    simp only [DatasetItem.dirty, DatasetItem.tags, h, hout, hlen]
    simp

/-- The dirty flag after `remove_tags`, from a clean item: set iff the count
changed (no deduplication happens inside `remove_tags`). -/
theorem remove_tags_dirty (item : DatasetItem) (a : TagsArg)
    (h : item.dirty = false) :
    ((item.remove_tags a).dirty = true) ↔
      (item.remove_tags a).tags.length ≠ item.tags.length := by
  rw [remove_tags_tags]
  rw [remove_tags]
  split
  next hout =>
    simp only [DatasetItem.tags] at hout
    exact iff_of_true rfl hout
  next hout =>
    simp only [DatasetItem.tags, ne_eq, not_not] at hout
    show item.dirty = true ↔ _
    rw [h]
    exact iff_of_false (by simp) (not_not.mpr hout)

end DatasetItem

/-! ## The `split_tags` / `join_tags` round trip -/

/-- `split_tags` is piece-processing after comma-splitting. -/
theorem split_tags_eq (text : String) :
    split_tags text = processPieces (splitOnComma text.data) := rfl

/-- Splitting a comma-free character list returns it whole. -/
theorem splitOnComma_no_comma {l : List Char} (h : ',' ∉ l) :
    splitOnComma l = [l] := by
  induction l with
  | nil => rfl
  | cons c cs ih =>
      have hc : c ≠ ',' := fun hEq => h (hEq ▸ List.mem_cons_self c cs)
      have hcs : ',' ∉ cs := fun hm => h (List.mem_cons_of_mem c hm)
      rw [splitOnComma, if_neg hc, ih hcs]

/-- Splitting past the first comma: a comma-free head piece comes off whole. -/
theorem splitOnComma_append_comma {l : List Char} (r : List Char) (h : ',' ∉ l) :
    splitOnComma (l ++ ',' :: r) = l :: splitOnComma r := by
  induction l with
  | nil =>
      show splitOnComma (',' :: r) = [] :: splitOnComma r
      rw [splitOnComma, if_pos rfl]
  | cons c cs ih =>
      have hc : c ≠ ',' := fun hEq => h (hEq ▸ List.mem_cons_self c cs)
      have hcs : ',' ∉ cs := fun hm => h (List.mem_cons_of_mem c hm)
      show splitOnComma (c :: (cs ++ ',' :: r)) = (c :: cs) :: splitOnComma r
      rw [splitOnComma, if_neg hc, ih hcs]

/-- Two-or-more-piece case of `joinChars`. -/
theorem joinChars_cons₂ (sep : List Char) (x y : List Char) (ys : List (List Char)) :
    joinChars sep (x :: y :: ys) = x ++ sep ++ joinChars sep (y :: ys) := rfl

/-- A string fixed by `pyStrip` has strip-fixed character data. -/
theorem stripChars_data_of_stripped {t : String} (h : pyStrip t = t) :
    stripChars t.data = t.data :=
  congrArg String.data h

/-- `String.mk` undoes `String.data`. -/
theorem string_eta (t : String) : (⟨t.data⟩ : String) = t := rfl

/-- Processing a single comma-free, stripped, nonempty piece yields it back. -/
theorem processPieces_single {t : String}
    (h : pyStrip t = t ∧ t ≠ "" ∧ ',' ∉ t.data) :
    processPieces [' ' :: t.data] = [t] := by
  rcases h with ⟨hs, hne, _⟩
  simp only [processPieces, List.map, stripChars_cons_space,
    stripChars_data_of_stripped hs, string_eta]
  have hb : (t != "") = true := by simpa using hne
  simp [List.filter_cons, hb]

/-- The auxiliary round trip: a blank-prefixed, comma-joined, nonempty tag
list splits and strips back to itself. -/
theorem processPieces_space_join (ts : List String) (hne : ts ≠ [])
    (h : ∀ t ∈ ts, pyStrip t = t ∧ t ≠ "" ∧ ',' ∉ t.data) :
    processPieces (splitOnComma (' ' :: joinChars [',', ' '] (ts.map String.data)))
      = ts := by
  induction ts with
  | nil => exact absurd rfl hne
  | cons u us ih =>
      have hu := h u (List.mem_cons_self u us)
      cases us with
      | nil =>
          show processPieces (splitOnComma (' ' :: u.data)) = [u]
          rw [splitOnComma_no_comma]
          · exact processPieces_single hu
          · intro hm
            rcases List.mem_cons.mp hm with hsp | hm2
            · cases hsp
            · exact hu.2.2 hm2
      | cons v vs =>
          simp only [List.map]
          rw [joinChars_cons₂]
          have hsplit :
              ' ' :: (u.data ++ [',', ' '] ++
                  joinChars [',', ' '] (v.data :: vs.map String.data))
                = (' ' :: u.data) ++
                    ',' :: (' ' :: joinChars [',', ' '] (v.data :: vs.map String.data)) := by
            simp
          rw [hsplit, splitOnComma_append_comma]
          · have htail := ih (by simp) (fun t ht => h t (List.mem_cons_of_mem u ht))
            simp only [List.map] at htail
            have hkeep : (⟨stripChars (' ' :: u.data)⟩ : String) = u := by
              rw [stripChars_cons_space, stripChars_data_of_stripped hu.1]
            show processPieces ((' ' :: u.data) :: _) = u :: v :: vs
            rw [processPieces, List.map, hkeep]
            rw [List.filter]
            have : (u != "") = true := by simpa using hu.2.1
            rw [this]
            show u :: processPieces _ = u :: v :: vs
            rw [htail]
          · intro hm
            rcases List.mem_cons.mp hm with hsp | hm2
            · cases hsp
            · exact hu.2.2 hm2

/-- The character data of a default `join_tags` call. -/
theorem join_tags_data (tags : List String) :
    (join_tags tags).data = joinChars [',', ' '] (tags.map String.data) := by
  show (joinChars [',', ' '] (tags.map String.data) ++ ("" : String).data)
      = joinChars [',', ' '] (tags.map String.data)
  exact List.append_nil _

/-- Parsing inverts serialization on nonempty, stripped, comma-free tags. -/
theorem split_join_round_trip (tags : List String)
    (h : ∀ t ∈ tags, pyStrip t = t ∧ t ≠ "" ∧ ',' ∉ t.data) :
    split_tags (join_tags tags) = tags := by
  rw [split_tags_eq, join_tags_data]
  cases tags with
  | nil => rfl
  | cons u us =>
      have hu := h u (List.mem_cons_self u us)
      cases us with
      | nil =>
          show processPieces (splitOnComma u.data) = [u]
          rw [splitOnComma_no_comma hu.2.2]
          have hkeep : (⟨stripChars u.data⟩ : String) = u := by
            rw [stripChars_data_of_stripped hu.1]
          rw [processPieces, List.map, hkeep, List.filter]
          have : (u != "") = true := by simpa using hu.2.1
          rw [this]
          rfl
      | cons v vs =>
          simp only [List.map]
          rw [joinChars_cons₂]
          have hsplit :
              u.data ++ [',', ' '] ++ joinChars [',', ' '] (v.data :: vs.map String.data)
                = u.data ++
                    ',' :: (' ' :: joinChars [',', ' '] (v.data :: vs.map String.data)) := by
            simp
          rw [hsplit, splitOnComma_append_comma _ hu.2.2]
          have htail := processPieces_space_join (v :: vs) (by simp)
            (fun t ht => h t (List.mem_cons_of_mem u ht))
          simp only [List.map] at htail
          have hkeep : (⟨stripChars u.data⟩ : String) = u := by
            rw [stripChars_data_of_stripped hu.1]
          rw [processPieces, List.map, hkeep, List.filter]
          have : (u != "") = true := by simpa using hu.2.1
          rw [this]
          show u :: processPieces _ = u :: v :: vs
          rw [htail]

/-! ## Supporting lemmas for the invariant and aggregate claims -/

/-- Every entry produced by `split_tags` is stripped and nonempty. -/
theorem mem_split_tags {s text : String} (h : s ∈ split_tags text) :
    pyStrip s = s ∧ s ≠ "" := by
  rcases List.mem_filter.mp h with ⟨hmap, hne⟩
  rcases List.mem_map.mp hmap with ⟨cs, _, hcs⟩
  refine ⟨?_, by simpa using hne⟩
  rw [← hcs]
  show (⟨stripChars (stripChars cs)⟩ : String) = _
  rw [stripChars_idem]

/-- After `reload`, no tag is empty or whitespace-only. -/
theorem reload_no_blank (item : DatasetItem) (fc : Option String) :
    ∀ s ∈ (item.reload fc).1.tags, pyStrip s ≠ "" := by
  cases fc with
  | none => intro s hs; cases hs
  | some text =>
      intro s hs
      have hm : s ∈ split_tags text := hs
      rcases mem_split_tags hm with ⟨hstrip, hne⟩
      rw [hstrip]; exact hne

/-- `set_tags` re-establishes the tags invariant from any state. -/
theorem set_tags_invariant (item : DatasetItem) (a : TagsArg) :
    TagsInvariant ((item.set_tags a).tags) := by
  rw [DatasetItem.set_tags_tags]; exact tagsInvariant_dedupTags _

/-- `add_tags` re-establishes the tags invariant from any state. -/
theorem add_tags_invariant (item : DatasetItem) (a : TagsArg) :
    TagsInvariant ((item.add_tags a).tags) := by
  rw [DatasetItem.add_tags_tags]; exact tagsInvariant_dedupTags _

/-- `prepend_tags` re-establishes the tags invariant from any state. -/
theorem prepend_tags_invariant (item : DatasetItem) (a : TagsArg) :
    TagsInvariant ((item.prepend_tags a).tags) := by
  rw [DatasetItem.prepend_tags_tags]; exact tagsInvariant_dedupTags _

/-- `deduplicate` re-establishes the tags invariant from any state. -/
theorem deduplicate_invariant (item : DatasetItem) :
    TagsInvariant (item.deduplicate.tags) := by
  rw [DatasetItem.deduplicate_tags]; exact tagsInvariant_dedupTags _

/-- `remove_tags` preserves the tags invariant. -/
theorem remove_tags_invariant (item : DatasetItem) (a : TagsArg)
    (h : TagsInvariant item.tags) :
    TagsInvariant ((item.remove_tags a).tags) := by
  rw [DatasetItem.remove_tags_tags]
  exact ⟨h.1.filter _, fun s hs => h.2 s (List.mem_of_mem_filter hs)⟩

/-- `replace_tags` preserves the tags invariant. -/
theorem replace_tags_invariant (item : DatasetItem) (s r : TagsArg)
    (h : TagsInvariant item.tags) :
    TagsInvariant ((item.replace_tags s r).tags) := by
  rw [DatasetItem.replace_tags]
  split
  · exact add_tags_invariant _ r
  · exact h

/-- Summing the 0/1 dirty indicators counts the dirty items. -/
theorem sum_dirty_eq_length_filter (l : List DatasetItem) :
    (l.map (fun item => if item.dirty then 1 else 0)).sum
      = (l.filter (fun i => i.dirty)).length := by
  induction l with
  | nil => rfl
  | cons x xs ih =>
      by_cases hx : x.dirty
      · simp [List.filter_cons, hx, ih]
        omega
      · simp [List.filter_cons, hx, ih]

/-- A filter that keeps the whole length kept every element. -/
theorem all_of_length_filter_eq {α : Type} (p : α → Bool) :
    ∀ l : List α, (l.filter p).length = l.length → ∀ x ∈ l, p x := by
  intro l
  induction l with
  | nil => intro _ x hx; cases hx
  | cons a t ih =>
      intro h x hx
      rw [List.filter_cons] at h
      by_cases hp : p a
      · rcases List.mem_cons.mp hx with rfl | hxt
        · exact hp
        · apply ih ?_ x hxt
          simpa [hp] using h
      · exfalso
        have hle := List.length_filter_le p t
        simp [hp] at h
        omega

/-- `remove_tags` with an empty collection is the identity. -/
theorem remove_tags_empty (item : DatasetItem) :
    item.remove_tags (TagsArg.coll []) = item := by
  rw [DatasetItem.remove_tags]
  simp [TagsArg.toList]

/-! ## The claims -/

/-- C1, counterexample: on a clean item with tags `["a"]`, `add_tags ["a"]`
marks the item dirty (the inner deduplication shrank `["a", "a"]`) although
the tag count is unchanged — so count-based change detection, as claimed for
all three operations, fails for `add_tags`. -/
theorem claim1_cex :
    ¬ (∀ (item : DatasetItem) (a : TagsArg), item.dirty = false →
        (((item.add_tags a).dirty = true) ↔
          (item.add_tags a).tags.length ≠ item.tags.length) ∧
        (((item.prepend_tags a).dirty = true) ↔
          (item.prepend_tags a).tags.length ≠ item.tags.length) ∧
        (((item.remove_tags a).dirty = true) ↔
          (item.remove_tags a).tags.length ≠ item.tags.length)) := by
  intro h
  have h1 := (h itemA (TagsArg.coll ["a"]) rfl).1
  exact (h1.mp (by decide)) (by decide)

/-- C1, amended: from a clean item, `remove_tags` marks dirty iff the tag
count changed; `add_tags` and `prepend_tags` mark dirty iff the tag count
changed or the intermediate deduplication shrank the concatenated list
(i.e. the final count also differs from starting count plus argument
count). -/
theorem claim1_amended (item : DatasetItem) (a : TagsArg)
    (h : item.dirty = false) :
    (((item.add_tags a).dirty = true) ↔
      ((item.add_tags a).tags.length ≠ item.tags.length ∨
        (item.add_tags a).tags.length ≠ item.tags.length + a.toList.length)) ∧
    (((item.prepend_tags a).dirty = true) ↔
      ((item.prepend_tags a).tags.length ≠ item.tags.length ∨
        (item.prepend_tags a).tags.length ≠ a.toList.length + item.tags.length)) ∧
    (((item.remove_tags a).dirty = true) ↔
      (item.remove_tags a).tags.length ≠ item.tags.length) :=
  ⟨item.add_tags_dirty a h, item.prepend_tags_dirty a h,
    item.remove_tags_dirty a h⟩

/-- C1, witness: the amended dirty rule instantiated on the clean item
`["a"]` and the argument `["b"]`. -/
theorem claim1_witness :
    itemA.dirty = false ∧
    ((((itemA.add_tags (TagsArg.coll ["b"])).dirty = true) ↔
      ((itemA.add_tags (TagsArg.coll ["b"])).tags.length ≠ itemA.tags.length ∨
        (itemA.add_tags (TagsArg.coll ["b"])).tags.length ≠
          itemA.tags.length + (TagsArg.coll ["b"]).toList.length)) ∧
    (((itemA.prepend_tags (TagsArg.coll ["b"])).dirty = true) ↔
      ((itemA.prepend_tags (TagsArg.coll ["b"])).tags.length ≠ itemA.tags.length ∨
        (itemA.prepend_tags (TagsArg.coll ["b"])).tags.length ≠
          (TagsArg.coll ["b"]).toList.length + itemA.tags.length)) ∧
    (((itemA.remove_tags (TagsArg.coll ["b"])).dirty = true) ↔
      (itemA.remove_tags (TagsArg.coll ["b"])).tags.length ≠ itemA.tags.length)) :=
  ⟨rfl, claim1_amended itemA (TagsArg.coll ["b"]) rfl⟩

/-- C2, counterexample: `reload` parses the sidecar with `split_tags`, which
strips and drops empties but does not deduplicate — a file containing
`"a, a"` loads the duplicated tag list `["a", "a"]`, violating the claimed
no-duplicates invariant right after reload/construction. -/
theorem claim2_cex :
    ¬ ((∀ (item : DatasetItem) (fc : Option String),
          TagsInvariant ((item.reload fc).1.tags)) ∧
       (∀ (item : DatasetItem) (a : TagsArg),
          TagsInvariant ((item.set_tags a).tags)) ∧
       (∀ (item : DatasetItem) (a : TagsArg),
          TagsInvariant ((item.add_tags a).tags)) ∧
       (∀ (item : DatasetItem) (a : TagsArg),
          TagsInvariant ((item.prepend_tags a).tags)) ∧
       (∀ (item : DatasetItem), TagsInvariant (item.deduplicate.tags)) ∧
       (∀ (item : DatasetItem) (a : TagsArg), TagsInvariant item.tags →
          TagsInvariant ((item.remove_tags a).tags)) ∧
       (∀ (item : DatasetItem) (s r : TagsArg), TagsInvariant item.tags →
          TagsInvariant ((item.replace_tags s r).tags))) := by
  intro h
  have h1 := h.1 itemA (some "a, a")
  have h2 : ¬ ((itemA.reload (some "a, a")).1.tags).Nodup := by decide
  exact h2 h1.1

/-- C2, amended: after reload/construction the tags are guaranteed free of
empty and whitespace-only entries but may contain duplicates (if the file
does); `set_tags`, `add_tags`, `prepend_tags` and `deduplicate` establish
the full no-duplicates/no-blank invariant from any state; `remove_tags` and
`replace_tags` preserve it. -/
theorem claim2_amended :
    (∀ (item : DatasetItem) (fc : Option String),
        ∀ s ∈ (item.reload fc).1.tags, pyStrip s ≠ "") ∧
    (∀ (item : DatasetItem) (a : TagsArg),
        TagsInvariant ((item.set_tags a).tags)) ∧
    (∀ (item : DatasetItem) (a : TagsArg),
        TagsInvariant ((item.add_tags a).tags)) ∧
    (∀ (item : DatasetItem) (a : TagsArg),
        TagsInvariant ((item.prepend_tags a).tags)) ∧
    (∀ (item : DatasetItem), TagsInvariant (item.deduplicate.tags)) ∧
    (∀ (item : DatasetItem) (a : TagsArg), TagsInvariant item.tags →
        TagsInvariant ((item.remove_tags a).tags)) ∧
    (∀ (item : DatasetItem) (s r : TagsArg), TagsInvariant item.tags →
        TagsInvariant ((item.replace_tags s r).tags)) :=
  ⟨reload_no_blank, set_tags_invariant, add_tags_invariant,
    prepend_tags_invariant, deduplicate_invariant, remove_tags_invariant,
    replace_tags_invariant⟩

/-- C2, witness: the preservation conjunct instantiated on the invariant
item `["a"]` and a concrete `remove_tags` call. -/
theorem claim2_witness :
    TagsInvariant itemA.tags ∧
    TagsInvariant ((itemA.remove_tags (TagsArg.coll ["a"])).tags) :=
  ⟨by decide, claim2_amended.2.2.2.2.2.1 itemA (TagsArg.coll ["a"]) (by decide)⟩

/-- C3, counterexample: the aggregate queries iterate over the whole `items`
list without filtering out deleted items, so on a dataset whose single item
is marked deleted (but not yet compacted away) while dirty and selected,
`unsaved_changes_cnt` is 1 although no active item is dirty. -/
theorem claim3_cex :
    ¬ (∀ d : Dataset,
        d.unsaved_changes_cnt
            = (d.activeItems.filter (fun i => i.dirty)).length ∧
        d.length = d.activeItems.length ∧
        d.get_selection = d.activeItems.filter (fun i => i.selected)) := by
  intro h
  exact absurd (h deletedDirtyDataset).1 (by decide)

/-- C3, amended: the aggregate queries count/collect over the entire `items`
list; they agree with the active-only readings exactly when no item in the
list is marked deleted (if any item is deleted, already the `length`
aggregate disagrees; no deleted items is the normal state, since
`remove_images` compacts immediately after marking). -/
theorem claim3_amended (d : Dataset) :
    (d.unsaved_changes_cnt
        = (d.activeItems.filter (fun i => i.dirty)).length ∧
      d.length = d.activeItems.length ∧
      d.get_selection = d.activeItems.filter (fun i => i.selected))
      ↔ ∀ i ∈ d.items, i.deleted = false := by
  constructor
  · rintro ⟨-, hlen, -⟩
    intro i hi
    have hl : (d.items.filter (fun i => !i.deleted)).length = d.items.length :=
      hlen.symm
    have := all_of_length_filter_eq (fun i => !i.deleted) d.items hl i hi
    simpa using this
  · intro h
    have hact : d.activeItems = d.items :=
      List.filter_eq_self.mpr (fun i hi => by simp [h i hi])
    refine ⟨?_, ?_, ?_⟩
    · rw [hact]
      exact sum_dirty_eq_length_filter d.items
    · rw [hact]; rfl
    · rw [hact]; rfl

/-- C4: `set_tags` always marks the item dirty, whatever the argument —
even one equal to the current tags. -/
theorem claim4_set_tags_always_dirty (item : DatasetItem) (x : TagsArg) :
    (item.set_tags x).dirty = true := rfl

/-- C5: when `match_tags search` is false, `replace_tags search replace`
returns the item completely unchanged (tags, dirty, and all other state). -/
theorem claim5_replace_tags_noop (item : DatasetItem) (search replace : TagsArg)
    (h : item.match_tags search = false) :
    item.replace_tags search replace = item := by
  rw [DatasetItem.replace_tags, h]
  simp

/-- C5, witness: the no-op guarantee instantiated on the item `["a"]` and a
search for the absent tag `"b"`. -/
theorem claim5_witness :
    itemA.match_tags (TagsArg.coll ["b"]) = false ∧
    itemA.replace_tags (TagsArg.coll ["b"]) (TagsArg.coll ["c"]) = itemA :=
  ⟨by decide,
    claim5_replace_tags_noop itemA (TagsArg.coll ["b"]) (TagsArg.coll ["c"])
      (by decide)⟩

/-- C6: for an item whose tags are nonempty, stripped, comma-free and
duplicate-free, a `flush` that actually writes (the item is dirty, or
`force` is set) followed by `reload` restores exactly the written tag
sequence and clears `dirty` — comma-join then split-trim-drop-empties is
the identity on such sequences. -/
theorem claim6_flush_reload_round_trip (item : DatasetItem) (fc : Option String)
    (force : Bool)
    (hgood : ∀ t ∈ item.tags, pyStrip t = t ∧ t ≠ "" ∧ ',' ∉ t.data)
    (_hnd : item.tags.Nodup)
    (hw : item.dirty = true ∨ force = true) :
    ((item.flush fc force).1.reload (item.flush fc force).2).1.tags
        = item.tags ∧
    ((item.flush fc force).1.reload (item.flush fc force).2).1.dirty
        = false := by
  have hcond : (item.dirty || force) = true := by
    rcases hw with h | h <;> simp [h]
  have hfc : (item.flush fc force).2 = some (join_tags item.tags) := by
    show (if item.dirty || force then some (join_tags item.tags) else fc)
        = some (join_tags item.tags)
    rw [hcond]
    simp
  rw [hfc]
  constructor
  · show split_tags (join_tags item.tags) = item.tags
    exact split_join_round_trip item.tags hgood
  · rfl

/-- C6, witness: the round trip instantiated on the dirty item
`["a", "b", "c"]` with stale sidecar content. -/
theorem claim6_witness :
    (∀ t ∈ itemABC.tags, pyStrip t = t ∧ t ≠ "" ∧ ',' ∉ t.data) ∧
    itemABC.tags.Nodup ∧
    (itemABC.dirty = true ∨ false = true) ∧
    (((itemABC.flush (some "junk") false).1.reload
          (itemABC.flush (some "junk") false).2).1.tags = itemABC.tags ∧
      ((itemABC.flush (some "junk") false).1.reload
          (itemABC.flush (some "junk") false).2).1.dirty = false) :=
  ⟨by decide, by decide, .inl rfl,
    claim6_flush_reload_round_trip itemABC (some "junk") false (by decide)
      (by decide) (.inl rfl)⟩

/-- C7: `deduplicate` is idempotent on the tag sequence — a second
application returns the same tags as the first. -/
theorem claim7_deduplicate_idem (item : DatasetItem) :
    item.deduplicate.deduplicate.tags = item.deduplicate.tags := by
  rw [DatasetItem.deduplicate_tags, DatasetItem.deduplicate_tags,
    dedupTags_idem]

/-- C8: hard deletion (`delete` with `soft = false`) always succeeds — in
particular for any file-existence state, including both files already
absent — marks the item deleted, and emits a warning-level diagnostic
rather than an error. -/
theorem claim8_hard_delete (item : DatasetItem) (fs : FileSys) :
    item.delete fs false =
      .ok ({ item with deleted := true }, ⟨false, false⟩,
        [Diagnostic.warning "Permanently deleting an image!"]) := rfl

/-- C9: `match_tags` on an empty collection is vacuously true, so
`replace_tags` with an empty search never takes the early return: it always
runs the remove-then-add steps, which amount to `add_tags replace` (the
empty removal is the identity). -/
theorem claim9_empty_search (item : DatasetItem) (replace : TagsArg) :
    item.match_tags (TagsArg.coll []) = true ∧
    item.replace_tags (TagsArg.coll []) replace = item.add_tags replace := by
  refine ⟨rfl, ?_⟩
  have hm : item.match_tags (TagsArg.coll []) = true := rfl
  rw [DatasetItem.replace_tags, if_pos hm, remove_tags_empty]

/-- C10: every tag operation that accepts `str | Collection[str]` wraps a
bare string into a one-element list, so a single string argument behaves
exactly like the singleton collection of it — one single tag, not its
characters (the final conjunct: `set_tags "ab"` yields the single tag
`"ab"`). -/
theorem claim10_single_string (item : DatasetItem) (s : String)
    (other : TagsArg) :
    item.set_tags (TagsArg.str s) = item.set_tags (TagsArg.coll [s]) ∧
    item.add_tags (TagsArg.str s) = item.add_tags (TagsArg.coll [s]) ∧
    item.prepend_tags (TagsArg.str s) = item.prepend_tags (TagsArg.coll [s]) ∧
    item.remove_tags (TagsArg.str s) = item.remove_tags (TagsArg.coll [s]) ∧
    item.match_tags (TagsArg.str s) = item.match_tags (TagsArg.coll [s]) ∧
    item.replace_tags (TagsArg.str s) other
        = item.replace_tags (TagsArg.coll [s]) other ∧
    item.replace_tags other (TagsArg.str s)
        = item.replace_tags other (TagsArg.coll [s]) ∧
    (item.set_tags (TagsArg.str "ab")).tags = ["ab"] :=
  ⟨rfl, rfl, rfl, rfl, rfl, rfl, rfl,
    by rw [DatasetItem.set_tags_tags]; decide⟩

end DatasetEditor
